import Mathlib

/-!
Verification of the semantic merge engine of the M365-Comparison app.

The definitions below are a shallow embedding of the JavaScript source
(`src/unnamed/part_000`): the fingerprint normalizer `getSemanticFingerprint`
(lines 74-86), the taxonomy merger `activeMap` (lines 280-326) and the
filtered projection `filteredCategories` (lines 328-345).

Modelling conventions:
* JS strings are Lean `String`s, processed as `List Char`;
  `String.toLowerCase` is modelled as ASCII lowering (`Char.toLower`), which
  agrees with JS on all inputs appearing in the development.
* The regex class `\s` is modelled as the JS whitespace characters
  space, tab, newline, carriage return, vertical tab and form feed.
* JS objects used as string-keyed dictionaries are association lists
  `List (String × String)` with unique keys in insertion order; assigning to
  an existing key updates it in place, assigning a fresh key appends it.
* A JS value that may be `undefined`/`null`/absent is an `Option`;
  JS truthiness of an optional string (`undefined`, `null` and `""` are
  falsy) is `optTruthy`.
* A JS function call that throws is modelled with `Except`.
-/

namespace M365

/-- JS `\s` whitespace class (ASCII part, which is what the app ever sees). -/
def isJsWs (c : Char) : Bool :=
  c == ' ' || c == '\t' || c == '\n' || c == '\r' || c == '\x0b' || c == '\x0c'

/-- JS `String.prototype.trim`: drop whitespace at both ends. -/
def trimJs (s : List Char) : List Char :=
  ((s.dropWhile isJsWs).reverse.dropWhile isJsWs).reverse

/-- Match a literal word at the head of the input, returning the rest. -/
def dropLit : List Char → List Char → Option (List Char)
  | [], s => some s
  | _ :: _, [] => none
  | c :: cs, d :: ds => if c == d then dropLit cs ds else none

/-- Match `\s+` (greedy, as the regexes in the source use it before a
literal or at the end of the pattern) at the head of the input. -/
def dropWsPlus : List Char → Option (List Char)
  | [] => none
  | c :: rest => if isJsWs c then some (rest.dropWhile isJsWs) else none

/-- Match a sequence of literal words separated/terminated by `\s+`
(the shape of every prefix pattern in `getSemanticFingerprint`). -/
def matchWordsWs : List (List Char) → List Char → Option (List Char)
  | [], s => some s
  | w :: ws, s =>
    match dropLit w s with
    | none => none
    | some s1 =>
      match dropWsPlus s1 with
      | none => none
      | some s2 => matchWordsWs ws s2

/-- `.replace(/^w1\s+w2\s+.../ , '')`: strip an anchored prefix pattern,
or leave the string unchanged when it does not match. -/
def stripLeadingWords (ws : List String) (s : List Char) : List Char :=
  (matchWordsWs (ws.map String.data) s).getD s

/-- `.replace(/\s+w1\s+w2$/ , '')`: strip an anchored suffix pattern made of
literal words, implemented by matching the reversed pattern on the reversed
string. -/
def stripTrailingWords (ws : List String) (s : List Char) : List Char :=
  match matchWordsWs (ws.reverse.map (fun w => w.data.reverse)) s.reverse with
  | some r => r.reverse
  | none => s

/-- `.replace(/\s+plan\s+\d+$/ , '')`: strip a trailing `plan N` qualifier
(N a digit sequence), again via the reversed string. -/
def stripPlanSuffix (s : List Char) : List Char :=
  match s.reverse with
  | c :: rest =>
    if c.isDigit then
      match dropWsPlus (rest.dropWhile Char.isDigit) with
      | none => s
      | some s2 =>
        match dropLit "nalp".data s2 with
        | none => s
        | some s3 =>
          match dropWsPlus s3 with
          | none => s
          | some s4 => s4.reverse
    else s
  | [] => s

/-- Keep only `[a-z0-9]`, the final catch-all of the fingerprint. -/
def keepAlnum (s : List Char) : List Char :=
  s.filter (fun c => ('a' ≤ c && c ≤ 'z') || ('0' ≤ c && c ≤ '9'))

/-- `getSemanticFingerprint` (source lines 74-86): trim, lowercase, strip the
brand prefixes in order, strip the trailing qualifiers, then remove every
character that is not a lowercase letter or digit. -/
def getSemanticFingerprint (str : String) : String :=
  let s0 := (trimJs str.data).map Char.toLower
  let s1 := stripLeadingWords ["microsoft", "365"] s0
  let s2 := stripLeadingWords ["m365"] s1
  let s3 := stripLeadingWords ["office", "365"] s2
  let s4 := stripLeadingWords ["o365"] s3
  let s5 := stripLeadingWords ["ms"] s4
  let s6 := stripLeadingWords ["microsoft"] s5
  let s7 := stripTrailingWords ["for", "business"] s6
  let s8 := stripTrailingWords ["for", "enterprise"] s7
  let s9 := stripPlanSuffix s8
  ⟨keepAlnum s9⟩

/-- The source function begins with `str.trim()`; a JS call with `null` or
`undefined` therefore raises a `TypeError` before any normalization runs.
Calling the function on a possibly-absent label is modelled here: an absent
argument is `none` and yields the thrown error. -/
def getSemanticFingerprintJs (str : Option String) : Except String String :=
  match str with
  | none => Except.error "TypeError: str.trim is not a function"
  | some s => Except.ok (getSemanticFingerprint s)

/-! ## Data model

The shapes consumed and produced by `activeMap` (source lines 280-326). -/

/-- A feature of a stored source taxonomy:
`{ name, description, link?, status: { [tierName]: string } }`. -/
structure SrcFeature where
  name : String
  description : String
  link : Option String
  status : List (String × String)
deriving DecidableEq, Repr

/-- A category of a stored source taxonomy. -/
structure SrcCategory where
  name : String
  features : List SrcFeature
deriving DecidableEq, Repr

/-- The `data` field of a stored map: `{ tiers, categories }`. -/
structure MapData where
  tiers : List String
  categories : List SrcCategory
deriving DecidableEq, Repr

/-- A stored source map (`maps` array element): the fields `activeMap`
reads are `id`, `title` and `data`. -/
structure SrcMap where
  id : String
  title : String
  data : MapData
deriving DecidableEq, Repr

/-- One entry of `comparisonTiers`: `{ mapId, tier }`. -/
structure SelEntry where
  mapId : String
  tier : String
deriving DecidableEq, Repr

/-- A unified feature produced by the merge: the spread copy of the first
occurrence plus the per-column `status` object and the `isDiff` flag. -/
structure UFeature where
  name : String
  description : String
  link : Option String
  status : List (String × String)
  isDiff : Bool
deriving DecidableEq, Repr

/-- A unified category (value of the `unifiedCategories` JS `Map`). -/
structure UCategory where
  name : String
  features : List UFeature
deriving DecidableEq, Repr

/-- The merge result `{ tiers: columnNames, categories: [...] }`. -/
structure Unified where
  tiers : List String
  categories : List UCategory
deriving DecidableEq, Repr

/-! ## JS dictionary primitives -/

/-- Property read `m[k]` on a string-keyed JS object. -/
def lookupKV (m : List (String × String)) (k : String) : Option String :=
  (m.find? (fun p => p.1 == k)).map (fun p => p.2)

/-- Property write `m[k] = v` on a JS object: update in place when the key
exists, append otherwise (JS insertion-order semantics). -/
def setKV (m : List (String × String)) (k v : String) : List (String × String) :=
  if m.any (fun p => p.1 == k) then
    m.map (fun p => if p.1 == k then (k, v) else p)
  else
    m ++ [(k, v)]

/-- JS truthiness of an optional string: `undefined`, `null` and `""` are
falsy, every other string is truthy. -/
def optTruthy : Option String → Bool
  | none => false
  | some s => s != ""

/-- `feat.status[tier] || 'Excluded'`: a missing or falsy (empty) status
defaults to `"Excluded"`. -/
def statusOrExcluded (st : List (String × String)) (tier : String) : String :=
  match lookupKV st tier with
  | some v => if v == "" then "Excluded" else v
  | none => "Excluded"

/-- The distinct values of a list, as built by `new Set(values)`. -/
def distinctVals : List String → List String
  | [] => []
  | a :: t =>
    let r := distinctVals t
    if r.contains a then r else a :: r

/-- `new Set(values).size`. -/
def distinctCount (l : List String) : Nat := (distinctVals l).length

/-! ## The merge engine (`activeMap`, source lines 280-326) -/

/-- Link enrichment (line 310): `if (!uFeat.link && feat.link) uFeat.link = feat.link`. -/
def enrichLink (old occ : Option String) : Option String :=
  if !optTruthy old && optTruthy occ then occ else old

/-- Description enrichment (line 311): longer-description-wins,
`if (feat.description.length > uFeat.description.length) ...`. -/
def enrichDesc (old occ : String) : String :=
  if occ.length > old.length then occ else old

/-- The per-occurrence update of a unified feature (lines 310-317):
enrich link and description, write this column's status, recompute `isDiff`. -/
def applyOcc (col tier : String) (feat : SrcFeature) (uf : UFeature) : UFeature :=
  let link := enrichLink uf.link feat.link
  let description := enrichDesc uf.description feat.description
  let status := setKV uf.status col (statusOrExcluded feat.status tier)
  { uf with
    link := link,
    description := description,
    status := status,
    isDiff := decide (1 < distinctCount (status.map (fun p => p.2))) }

/-- Creation of a unified feature (lines 305-307): spread-copy the source
feature, reset `status` and pre-fill `"Excluded"` for every known column
(`isDiff` starts absent, i.e. falsy). -/
def newUFeature (columnNames : List String) (feat : SrcFeature) : UFeature :=
  { name := feat.name, description := feat.description, link := feat.link,
    status := columnNames.foldl (fun m cn => setKV m cn "Excluded") [],
    isDiff := false }

/-- Apply `f` to the first element satisfying `p` (the JS `find`-then-mutate
idiom), leaving every other element in place. -/
def updateFirst (l : List α) (p : α → Bool) (f : α → α) : List α :=
  match l with
  | [] => []
  | a :: as => if p a then f a :: as else a :: updateFirst as p f

/-- Fold one source-feature occurrence into a unified category's feature
list (lines 300-318): find the fingerprint-matching unified feature, create
it if absent, then apply the occurrence to it. -/
def applyFeat (columnNames : List String) (col tier : String)
    (feats : List UFeature) (feat : SrcFeature) : List UFeature :=
  let featKey := getSemanticFingerprint feat.name
  let feats' :=
    if feats.any (fun uf => getSemanticFingerprint uf.name == featKey) then feats
    else feats ++ [newUFeature columnNames feat]
  updateFirst feats' (fun uf => getSemanticFingerprint uf.name == featKey)
    (applyOcc col tier feat)

/-- Fold one source category into the unified category map (lines 292-319):
create the fingerprint-keyed unified category if absent (keeping the
first-seen display name), then fold every feature of this occurrence. -/
def applyCat (columnNames : List String) (col tier : String)
    (cats : List (String × UCategory)) (cat : SrcCategory) :
    List (String × UCategory) :=
  let catKey := getSemanticFingerprint cat.name
  let cats' :=
    if cats.any (fun p => p.1 == catKey) then cats
    else cats ++ [(catKey, ⟨cat.name, []⟩)]
  updateFirst cats' (fun p => p.1 == catKey)
    (fun kc => (kc.1, ⟨kc.2.name, cat.features.foldl (applyFeat columnNames col tier) kc.2.features⟩))

/-- A surviving selection entry with its resolved map and derived column
label (lines 283-286). -/
structure Config where
  map : SrcMap
  tier : String
  col : String
deriving DecidableEq, Repr

/-- Resolution of the selection (lines 283-286): look each entry's map up by
id, build the column label `` `${map.title} - ${s.tier}` ``, and drop
entries whose map is not found (`.filter(c => c.map)`). -/
def resolveConfigs (sel : List SelEntry) (maps : List SrcMap) : List Config :=
  sel.filterMap (fun s =>
    (maps.find? (fun m => m.id == s.mapId)).map
      (fun m => ⟨m, s.tier, m.title ++ " - " ++ s.tier⟩))

/-- The body of the merge over the surviving configs (lines 288-325). -/
def mergeConfigs (configs : List Config) : Unified :=
  let columnNames := configs.map (fun c => c.col)
  let cats := configs.foldl
    (fun acc c => c.map.data.categories.foldl (applyCat columnNames c.col c.tier) acc) []
  ⟨columnNames, cats.map (fun p => p.2)⟩

/-- `activeMap` (lines 280-326): `null` for an empty selection, otherwise
the merged unified taxonomy. -/
def activeMap (comparisonTiers : List SelEntry) (maps : List SrcMap) : Option Unified :=
  if comparisonTiers.isEmpty then none
  else some (mergeConfigs (resolveConfigs comparisonTiers maps))

/-! ## State-passing reading of the merge

`activeMap` reads the ambient `maps` state; every access in the source is a
read (`maps.find(...)` in line 284), never a write.  The state-passing
translation makes that explicit: the store is threaded through config
resolution and handed back. -/

/-- Config resolution with the map store threaded explicitly; each entry
performs the read-only lookup `maps.find(m => m.id === s.mapId)`. -/
def resolveConfigsSt : List SelEntry → List SrcMap → List Config × List SrcMap
  | [], maps => ([], maps)
  | s :: rest, maps =>
    let found := maps.find? (fun m => m.id == s.mapId)
    let (cs, maps1) := resolveConfigsSt rest maps
    match found with
    | none => (cs, maps1)
    | some m => (⟨m, s.tier, m.title ++ " - " ++ s.tier⟩ :: cs, maps1)

/-- One reactive recomputation of `activeMap` against the map store,
returning the result together with the store it leaves behind. -/
def activeMapRun (comparisonTiers : List SelEntry) (maps : List SrcMap) :
    Option Unified × List SrcMap :=
  let (configs, maps1) := resolveConfigsSt comparisonTiers maps
  if comparisonTiers.isEmpty then (none, maps1)
  else (some (mergeConfigs configs), maps1)

/-! ## The filtered projection (`filteredCategories`, source lines 328-345) -/

/-- ASCII lowering, the model of `String.prototype.toLowerCase`. -/
def lowerStr (s : String) : String := ⟨s.data.map Char.toLower⟩

/-- `hay`-list ends with a check of `pat` at every position: the model of
`String.prototype.includes` (`"".includes("") = true` as in JS). -/
def listPrefixOf : List Char → List Char → Bool
  | [], _ => true
  | _ :: _, [] => false
  | a :: as, b :: bs => a == b && listPrefixOf as bs

/-- `hay.includes(pat)` over char lists. -/
def listContainsSub (pat : List Char) : List Char → Bool
  | [] => listPrefixOf pat []
  | c :: t => listPrefixOf pat (c :: t) || listContainsSub pat t

/-- `hay.includes(pat)` on strings. -/
def strIncludes (hay pat : String) : Bool := listContainsSub pat.data hay.data

/-- The per-feature search predicate of line 337:
`f.name.toLowerCase().includes(q) || f.description.toLowerCase().includes(q)`
with `q = searchQuery.toLowerCase()`. -/
def matchesQ (searchQuery : String) (f : UFeature) : Bool :=
  strIncludes (lowerStr f.name) (lowerStr searchQuery) ||
  strIncludes (lowerStr f.description) (lowerStr searchQuery)

/-- The per-category feature filtering of lines 334-342: `q` is the already
lowercased query; when it is non-empty keep only features it matches, then
when `diffOnly` is set keep only differing features. -/
def filterFeats (q : String) (diffOnly : Bool) (feats : List UFeature) : List UFeature :=
  let feats1 := if q != "" then
      feats.filter (fun f =>
        strIncludes (lowerStr f.name) q || strIncludes (lowerStr f.description) q)
    else feats
  if diffOnly then feats1.filter (fun f => f.isDiff) else feats1

/-- `filteredCategories` (lines 328-345): `[]` when there is no unified
taxonomy; otherwise restrict to allow-listed categories, filter features by
the search query and the differences-only toggle, and drop categories left
empty. -/
def filteredCategories (am : Option Unified) (searchQuery : String)
    (selectedCategories : List String) (diffOnly : Bool) : List UCategory :=
  match am with
  | none => []
  | some m =>
    ((m.categories.filter
      (fun c => selectedCategories.isEmpty || selectedCategories.contains c.name)).map
      (fun c => (⟨c.name, filterFeats (lowerStr searchQuery) diffOnly c.features⟩ :
        UCategory))).filter (fun c => c.features.length > 0)

/-! ## Concrete stored data used by witnesses and counterexamples -/

/-- The "Microsoft Defender" feature of the enterprise document. -/
def featDefEnt : SrcFeature :=
  ⟨"Microsoft Defender", "Endpoint protection", none,
   [("E3", "Included"), ("E5", "Included")]⟩

/-- The "Defender for Business" feature of the business document. -/
def featDefBiz : SrcFeature :=
  ⟨"Defender for Business", "Endpoint protection for small business",
   some "https://learn.microsoft.com/defender", [("Premium", "Partial")]⟩

/-- An enterprise source document with tiers E3 and E5. -/
def mapEnt : SrcMap :=
  ⟨"m1", "EnterpriseDoc", ⟨["E3", "E5"], [⟨"Security", [featDefEnt]⟩]⟩⟩

/-- A business source document with tier Premium. -/
def mapBiz : SrcMap :=
  ⟨"m2", "BusinessDoc", ⟨["Premium"], [⟨"Security", [featDefBiz]⟩]⟩⟩

/-- A three-column selection over the two documents above. -/
def wSel : List SelEntry := [⟨"m1", "E3"⟩, ⟨"m1", "E5"⟩, ⟨"m2", "Premium"⟩]

/-- The stored map collection for the witnesses. -/
def wMaps : List SrcMap := [mapEnt, mapBiz]

/-- A selection containing an entry whose `mapId` resolves to no stored map. -/
def ghostSel : List SelEntry := [⟨"m1", "E3"⟩, ⟨"ghost", "X"⟩]

/-- Two distinct stored documents that share the title "X" and a tier named
"T", so that both selection entries derive the same column label "X - T". -/
def cexMapA : SrcMap :=
  ⟨"a", "X", ⟨["T"], [⟨"Cat", [⟨"F", "d", none, [("T", "Included")]⟩]⟩]⟩⟩

/-- Second document with the colliding title. -/
def cexMapB : SrcMap :=
  ⟨"b", "X", ⟨["T"], [⟨"Cat", [⟨"F", "d", none, [("T", "Excluded")]⟩]⟩]⟩⟩

/-- The colliding-column selection: both entries resolve. -/
def cexSel : List SelEntry := [⟨"a", "T"⟩, ⟨"b", "T"⟩]

/-- The stored map collection with the title collision. -/
def cexMaps : List SrcMap := [cexMapA, cexMapB]

/-- The unified taxonomy produced by merging `wSel` over `wMaps`. -/
def wUnified : Unified := mergeConfigs (resolveConfigs wSel wMaps)

/-- The single unified feature of that merge: the two Defender occurrences
fingerprint-collide, the longer business description wins, the business link
is adopted, and the three statuses diverge. -/
def wFeat : UFeature :=
  ⟨"Microsoft Defender", "Endpoint protection for small business",
   some "https://learn.microsoft.com/defender",
   [("EnterpriseDoc - E3", "Included"), ("EnterpriseDoc - E5", "Included"),
    ("BusinessDoc - Premium", "Partial")], true⟩

/-- The single unified category of that merge. -/
def wCat : UCategory := ⟨"Security", [wFeat]⟩

/-! ## Per-feature occurrence fold (for the enrichment claim)

Inside `activeMap`, all occurrences with one fingerprint hit the same
unified feature: the first occurrence creates it (`newUFeature`, lines
305-307) and is immediately applied to it, every later occurrence is
applied through `applyOcc` (lines 310-317).  `mergeOccurrences` is exactly
that per-feature fold; each occurrence is a `(column, tier, source feature)`
triple. -/

/-- The sequence of occurrences merged into one unified feature. -/
def mergeOccurrences (columnNames : List String) (first : String × String × SrcFeature)
    (rest : List (String × String × SrcFeature)) : UFeature :=
  rest.foldl (fun uf o => applyOcc o.1 o.2.1 o.2.2 uf)
    (applyOcc first.1 first.2.1 first.2.2 (newUFeature columnNames first.2.2))

/-- Spec-side: the maximal character count among a list of descriptions. -/
def maxLen : List String → Nat
  | [] => 0
  | s :: t => max s.length (maxLen t)

/-- Spec-side: the strictly longest description seen, earliest first - the
spec's "longest-description-wins" value (ties keep the earlier one, since a
later occurrence only replaces when strictly longer). -/
def firstLongest (l : List String) : String :=
  (l.find? (fun s => s.length == maxLen l)).getD ""

/-! ## Claims about the fingerprint normalizer -/

/-- Claim C1, counterexample: the claim asserts that the fingerprint of
"Entra ID Plan 1" differs from that of "Entra ID Plan 2"; in fact the
`\s+plan\s+\d+$` rule strips the plan number, so both labels produce the
same key. -/
theorem C1_counterexample :
    getSemanticFingerprint "Entra ID Plan 1" = getSemanticFingerprint "Entra ID Plan 2" := by
  decide

/-- Claim C1, amended: "Entra ID Plan 1", "entra id plan 1" and
"EntraID Plan 1" all map to the same key "entraid" (symbol/case
insensitivity holds), but "Entra ID Plan 2" maps to that very same key,
because the trailing `plan N` qualifier is stripped for every digit
sequence N. -/
theorem C1_fingerprint_entra :
    getSemanticFingerprint "Entra ID Plan 1" = "entraid" ∧
    getSemanticFingerprint "entra id plan 1" = "entraid" ∧
    getSemanticFingerprint "EntraID Plan 1" = "entraid" ∧
    getSemanticFingerprint "Entra ID Plan 2" = "entraid" := by
  refine ⟨?_, ?_, ?_, ?_⟩ <;> decide

/-- Claim C9: "Microsoft 365 Defender", "M365 Defender" and "MS Defender"
all fingerprint to "defender" (the brand prefixes `microsoft 365`, `m365`
and `ms` are stripped, then nothing else matches). -/
theorem C9_fingerprint_defender :
    getSemanticFingerprint "Microsoft 365 Defender" = "defender" ∧
    getSemanticFingerprint "M365 Defender" = "defender" ∧
    getSemanticFingerprint "MS Defender" = "defender" := by
  refine ⟨?_, ?_, ?_⟩ <;> decide

/-- Claim C8, counterexample: the claim asserts the fingerprint returns the
empty string and never throws on absent input, but the source calls
`str.trim()` first, so a `null`/`undefined` label raises a `TypeError`
rather than returning `""`. -/
theorem C8_counterexample :
    getSemanticFingerprintJs none ≠ Except.ok "" := by
  intro h
  exact Except.noConfusion h

/-- Claim C8, amended: the fingerprint is total on every *present* string -
in particular the empty string maps to the empty string without error - but
an absent (`null`/`undefined`) label makes the call throw a `TypeError`
instead of returning the empty string. -/
theorem C8_total_on_strings :
    getSemanticFingerprint "" = "" ∧
    getSemanticFingerprintJs (some "") = Except.ok "" ∧
    (∀ s : String, getSemanticFingerprintJs (some s) = Except.ok (getSemanticFingerprint s)) ∧
    (∃ e, getSemanticFingerprintJs none = Except.error e) := by
  exact ⟨rfl, rfl, fun s => rfl, ⟨_, rfl⟩⟩

/-! ## Dictionary and fold lemmas -/

theorem map_fst_update (m : List (String × String)) (k v : String) :
    (m.map (fun p => if p.1 == k then (k, v) else p)).map (fun p => p.1)
      = m.map (fun p => p.1) := by
  induction m with
  | nil => rfl
  | cons p t ih =>
    simp only [List.map_cons, List.cons.injEq]
    refine ⟨?_, ih⟩
    by_cases hp : p.1 == k
    · have hk : p.1 = k := by simpa using hp
      simp [hp, hk]
    · simp [hp]

theorem setKV_keys_mem (m : List (String × String)) (k v : String)
    (h : k ∈ m.map (fun p => p.1)) :
    (setKV m k v).map (fun p => p.1) = m.map (fun p => p.1) := by
  have hany : m.any (fun p => p.1 == k) = true := by
    rcases List.mem_map.mp h with ⟨p, hp, hk⟩
    exact List.any_eq_true.mpr ⟨p, hp, by simp [hk]⟩
  simp only [setKV, hany, if_true]
  exact map_fst_update m k v

theorem setKV_keys_not_mem (m : List (String × String)) (k v : String)
    (h : ¬ k ∈ m.map (fun p => p.1)) :
    (setKV m k v).map (fun p => p.1) = m.map (fun p => p.1) ++ [k] := by
  have hany : m.any (fun p => p.1 == k) = false := by
    rw [List.any_eq_false]
    intro p hp hk
    exact h (List.mem_map.mpr ⟨p, hp, by simpa using hk⟩)
  simp [setKV, hany]

theorem mem_setKV (m : List (String × String)) (k v : String) (p : String × String)
    (h : p ∈ setKV m k v) : p ∈ m ∨ p = (k, v) := by
  by_cases hany : m.any (fun q => q.1 == k) = true
  · simp only [setKV, hany, if_true] at h
    rcases List.mem_map.mp h with ⟨q, hq, hpq⟩
    by_cases hqk : q.1 == k
    · right; rw [← hpq]; simp [hqk]
    · left; rw [← hpq]; simpa [hqk] using hq
  · simp only [setKV, Bool.not_eq_true] at hany
    simp only [setKV, hany, Bool.false_eq_true, if_false] at h
    rcases List.mem_append.mp h with h1 | h2
    · exact Or.inl h1
    · exact Or.inr (by simpa using h2)

theorem setKV_vals (m : List (String × String)) (k v : String)
    (hm : ∀ p ∈ m, p.2 = v) : ∀ p ∈ setKV m k v, p.2 = v := by
  intro p hp
  rcases mem_setKV m k v p hp with h | h
  · exact hm p h
  · rw [h]

theorem foldl_preserve {α β : Type} (P : β → Prop) (g : β → α → β) :
    ∀ (l : List α) (b : β), P b → (∀ b' a, a ∈ l → P b' → P (g b' a)) → P (l.foldl g b) := by
  intro l
  induction l with
  | nil => intro b h _; exact h
  | cons a t ih =>
    intro b h hs
    exact ih (g b a) (hs b a (by simp) h) (fun b' a' ha' => hs b' a' (by simp [ha']))

theorem foldl_excluded_keys :
    ∀ (cols : List String) (m : List (String × String)), cols.Nodup →
    (∀ c ∈ cols, ¬ c ∈ m.map (fun p => p.1)) →
    ((cols.foldl (fun acc cn => setKV acc cn "Excluded") m).map (fun p => p.1))
      = m.map (fun p => p.1) ++ cols := by
  intro cols
  induction cols with
  | nil => intro m _ _; simp
  | cons c t ih =>
    intro m hnd hni
    have hc : ¬ c ∈ m.map (fun p => p.1) := hni c (by simp)
    have hkeys := setKV_keys_not_mem m c "Excluded" hc
    have ht : ∀ c' ∈ t, ¬ c' ∈ (setKV m c "Excluded").map (fun p => p.1) := by
      intro c' hc'
      rw [hkeys]
      simp only [List.mem_append, List.mem_singleton]
      rintro (h1 | h2)
      · exact hni c' (by simp [hc']) h1
      · exact (List.nodup_cons.mp hnd).1 (h2 ▸ hc')
    calc ((c :: t).foldl (fun acc cn => setKV acc cn "Excluded") m).map (fun p => p.1)
        = (t.foldl (fun acc cn => setKV acc cn "Excluded") (setKV m c "Excluded")).map (fun p => p.1) := by
          simp
      _ = (setKV m c "Excluded").map (fun p => p.1) ++ t := ih _ (List.nodup_cons.mp hnd).2 ht
      _ = m.map (fun p => p.1) ++ c :: t := by rw [hkeys]; simp

theorem distinctVals_all_eq (l : List String) (a : String) (h : ∀ x ∈ l, x = a) :
    distinctVals l = [] ∨ distinctVals l = [a] := by
  induction l with
  | nil => exact Or.inl rfl
  | cons x t ih =>
    have hx : x = a := h x (by simp)
    have ht := ih (fun y hy => h y (by simp [hy]))
    rcases ht with h0 | h1
    · right; simp [distinctVals, h0, hx]
    · right; subst hx; simp [distinctVals, h1]

theorem distinctCount_le_one (l : List String) (a : String) (h : ∀ x ∈ l, x = a) :
    distinctCount l ≤ 1 := by
  rcases distinctVals_all_eq l a h with h0 | h1
  · simp [distinctCount, h0]
  · simp [distinctCount, h1]

theorem mem_updateFirst {α : Type} {l : List α} {p : α → Bool} {f : α → α} {a : α}
    (h : a ∈ updateFirst l p f) : a ∈ l ∨ ∃ b, b ∈ l ∧ a = f b := by
  induction l with
  | nil => simp [updateFirst] at h
  | cons x t ih =>
    by_cases hx : p x
    · simp only [updateFirst, hx, if_true] at h
      rcases List.mem_cons.mp h with h1 | h2
      · exact Or.inr ⟨x, by simp, h1⟩
      · exact Or.inl (by simp [h2])
    · simp only [updateFirst, hx, Bool.false_eq_true, if_false] at h
      rcases List.mem_cons.mp h with h1 | h2
      · exact Or.inl (by simp [h1])
      · rcases ih h2 with h3 | ⟨b, hb, he⟩
        · exact Or.inl (by simp [h3])
        · exact Or.inr ⟨b, by simp [hb], he⟩

theorem map_updateFirst {α γ : Type} (g : α → γ) (l : List α) (p : α → Bool) (f : α → α)
    (hg : ∀ a, g (f a) = g a) : (updateFirst l p f).map g = l.map g := by
  induction l with
  | nil => rfl
  | cons x t ih =>
    by_cases px : p x <;> simp [updateFirst, px, ih, hg]

theorem forall_updateFirst {α : Type} (P : α → Prop) (l : List α) (p : α → Bool) (f : α → α)
    (hl : ∀ a ∈ l, P a) (hf : ∀ a, P a → P (f a)) : ∀ a ∈ updateFirst l p f, P a := by
  intro a ha
  rcases mem_updateFirst ha with h | ⟨b, hb, he⟩
  · exact hl a h
  · exact he ▸ hf b (hl b hb)

/-! ## Per-feature invariants of the merge -/

theorem newUFeature_name (cn : List String) (ft : SrcFeature) :
    (newUFeature cn ft).name = ft.name := rfl

theorem newUFeature_keys (cn : List String) (ft : SrcFeature) (h : cn.Nodup) :
    (newUFeature cn ft).status.map (fun p => p.1) = cn := by
  have := foldl_excluded_keys cn [] h (by simp)
  simpa [newUFeature] using this

theorem newUFeature_vals (cn : List String) (ft : SrcFeature) :
    ∀ p ∈ (newUFeature cn ft).status, p.2 = "Excluded" := by
  have : ∀ p ∈ cn.foldl (fun acc c => setKV acc c "Excluded") [], p.2 = "Excluded" := by
    refine foldl_preserve (fun m => ∀ p ∈ m, p.2 = "Excluded")
      (fun acc c => setKV acc c "Excluded") cn [] (by simp) ?_
    intro m c _ hm
    exact setKV_vals m c "Excluded" hm
  exact this

theorem newUFeature_isDiff (cn : List String) (ft : SrcFeature) :
    (newUFeature cn ft).isDiff
      = decide (1 < distinctCount ((newUFeature cn ft).status.map (fun p => p.2))) := by
  have hv : ∀ x ∈ (newUFeature cn ft).status.map (fun p => p.2), x = "Excluded" := by
    intro x hx
    rcases List.mem_map.mp hx with ⟨p, hp, he⟩
    exact he ▸ newUFeature_vals cn ft p hp
  have h1 := distinctCount_le_one _ _ hv
  have h2 : ¬ (1 < distinctCount ((newUFeature cn ft).status.map (fun p => p.2))) := by omega
  rw [decide_eq_false h2]
  rfl

theorem applyOcc_name (col tier : String) (ft : SrcFeature) (uf : UFeature) :
    (applyOcc col tier ft uf).name = uf.name := rfl

theorem applyOcc_isDiff (col tier : String) (ft : SrcFeature) (uf : UFeature) :
    (applyOcc col tier ft uf).isDiff
      = decide (1 < distinctCount ((applyOcc col tier ft uf).status.map (fun p => p.2))) := rfl

theorem applyOcc_keys (col tier : String) (ft : SrcFeature) (uf : UFeature)
    (h : col ∈ uf.status.map (fun p => p.1)) :
    (applyOcc col tier ft uf).status.map (fun p => p.1) = uf.status.map (fun p => p.1) :=
  setKV_keys_mem uf.status col (statusOrExcluded ft.status tier) h

theorem applyFeat_forall (P : UFeature → Prop) (cn : List String) (col tier : String)
    (feats : List UFeature) (ft : SrcFeature)
    (hP : ∀ f ∈ feats, P f) (hnew : P (newUFeature cn ft))
    (hocc : ∀ uf, P uf → P (applyOcc col tier ft uf)) :
    ∀ f ∈ applyFeat cn col tier feats ft, P f := by
  intro f hf
  simp only [applyFeat] at hf
  have hfe : ∀ g ∈ (if feats.any
        (fun uf => getSemanticFingerprint uf.name == getSemanticFingerprint ft.name) then feats
      else feats ++ [newUFeature cn ft]), P g := by
    intro g hg
    by_cases hany : feats.any
        (fun uf => getSemanticFingerprint uf.name == getSemanticFingerprint ft.name) = true
    · rw [if_pos hany] at hg
      exact hP g hg
    · rw [if_neg hany] at hg
      rcases List.mem_append.mp hg with h1 | h2
      · exact hP g h1
      · have : g = newUFeature cn ft := by simpa using h2
        exact this ▸ hnew
  exact forall_updateFirst P _ _ _ hfe hocc f hf

theorem applyCat_forall (P : UFeature → Prop) (cn : List String) (col tier : String)
    (cats : List (String × UCategory)) (cat : SrcCategory)
    (h : ∀ q ∈ cats, ∀ f ∈ q.2.features, P f)
    (hnew : ∀ ft, P (newUFeature cn ft))
    (hocc : ∀ ft uf, P uf → P (applyOcc col tier ft uf)) :
    ∀ q ∈ applyCat cn col tier cats cat, ∀ f ∈ q.2.features, P f := by
  intro q hq
  simp only [applyCat] at hq
  have hcats : ∀ r ∈ (if cats.any (fun p => p.1 == getSemanticFingerprint cat.name) then cats
      else cats ++ [(getSemanticFingerprint cat.name, (⟨cat.name, []⟩ : UCategory))]),
      ∀ f ∈ r.2.features, P f := by
    intro r hr
    by_cases hany : cats.any (fun p => p.1 == getSemanticFingerprint cat.name) = true
    · rw [if_pos hany] at hr
      exact h r hr
    · rw [if_neg hany] at hr
      rcases List.mem_append.mp hr with h1 | h2
      · exact h r h1
      · have : r = (getSemanticFingerprint cat.name, (⟨cat.name, []⟩ : UCategory)) := by
          simpa using h2
        subst this
        simp
  refine forall_updateFirst (fun r => ∀ f ∈ r.2.features, P f) _ _ _ hcats ?_ q hq
  intro r hr
  refine foldl_preserve (fun fs => ∀ f ∈ fs, P f) (applyFeat cn col tier) cat.features
    r.2.features hr ?_
  intro fs ft _ hfs
  exact applyFeat_forall P cn col tier fs ft hfs (hnew ft) (hocc ft)

theorem mergeConfigs_forall (P : UFeature → Prop) (configs : List Config)
    (hnew : ∀ ft, P (newUFeature (configs.map (fun c => c.col)) ft))
    (hocc : ∀ col tier ft uf, col ∈ configs.map (fun c => c.col) → P uf →
      P (applyOcc col tier ft uf)) :
    ∀ c ∈ (mergeConfigs configs).categories, ∀ f ∈ c.features, P f := by
  intro c hc
  simp only [mergeConfigs] at hc
  rcases List.mem_map.mp hc with ⟨q, hq, he⟩
  have main : ∀ q ∈ configs.foldl
      (fun acc cf => cf.map.data.categories.foldl
        (applyCat (configs.map (fun c => c.col)) cf.col cf.tier) acc) [],
      ∀ f ∈ q.2.features, P f := by
    refine foldl_preserve (fun cats => ∀ q ∈ cats, ∀ f ∈ q.2.features, P f)
      (fun acc cf => cf.map.data.categories.foldl
        (applyCat (configs.map (fun c => c.col)) cf.col cf.tier) acc)
      configs [] (by simp) ?_
    intro acc cf hcf hacc
    refine foldl_preserve (fun cats => ∀ q ∈ cats, ∀ f ∈ q.2.features, P f)
      (applyCat (configs.map (fun c => c.col)) cf.col cf.tier)
      cf.map.data.categories acc hacc ?_
    intro acc2 cat _ hacc2
    exact applyCat_forall P _ cf.col cf.tier acc2 cat hacc2 hnew
      (fun ft uf h => hocc cf.col cf.tier ft uf (List.mem_map.mpr ⟨cf, hcf, rfl⟩) h)
  exact fun f hf => main q hq f (he ▸ hf)

theorem activeMap_eq_some (sel : List SelEntry) (maps : List SrcMap) (u : Unified)
    (h : activeMap sel maps = some u) :
    u = mergeConfigs (resolveConfigs sel maps) := by
  by_cases hsel : sel.isEmpty
  · simp [activeMap, hsel] at h
  · simp only [activeMap, hsel, Bool.false_eq_true, if_false, Option.some.injEq] at h
    exact h.symm

theorem resolveConfigs_length (sel : List SelEntry) (maps : List SrcMap)
    (h : ∀ s ∈ sel, (maps.find? (fun m => m.id == s.mapId)).isSome = true) :
    (resolveConfigs sel maps).length = sel.length := by
  induction sel with
  | nil => rfl
  | cons s t ih =>
    have hs := h s (by simp)
    rcases Option.isSome_iff_exists.mp hs with ⟨m, hm⟩
    have ht := ih (fun s' hs' => h s' (by simp [hs']))
    simp [resolveConfigs, List.filterMap_cons, hm] at ht ⊢
    exact ht

/-! ## Claims about the merge result -/

/-- Claim C4: after the merge, every unified feature's `isDiff` flag is true
exactly when its final status mapping holds more than one distinct value -
`isDiff` is recomputed from the full status object on every occurrence, and
the status of a feature only changes together with such a recomputation. -/
theorem C4_isDiff_iff_distinct (sel : List SelEntry) (maps : List SrcMap) (u : Unified)
    (h : activeMap sel maps = some u) (c : UCategory) (hc : c ∈ u.categories)
    (f : UFeature) (hf : f ∈ c.features) :
    f.isDiff = true ↔ 1 < distinctCount (f.status.map (fun p => p.2)) := by
  have hu := activeMap_eq_some sel maps u h
  subst hu
  have hinv := mergeConfigs_forall
    (fun f => f.isDiff = decide (1 < distinctCount (f.status.map (fun p => p.2))))
    (resolveConfigs sel maps)
    (fun ft => newUFeature_isDiff _ ft)
    (fun col tier ft uf _ _ => applyOcc_isDiff col tier ft uf)
    c hc f hf
  rw [hinv]
  simp

/-- Claim C4, witness: the Defender feature of the three-column example
carries `isDiff = true` and indeed has two distinct status values. -/
theorem C4_witness :
    wFeat.isDiff = true ↔ 1 < distinctCount (wFeat.status.map (fun p => p.2)) :=
  C4_isDiff_iff_distinct wSel wMaps wUnified rfl wCat (by decide) wFeat (by decide)

/-- Claim C2, counterexample: both entries of `cexSel` resolve and the
selection has two entries, but the two derived column labels collide
("X - T" twice), so the unified feature's status object holds a single key,
not `selection.length` keys. -/
theorem C2_counterexample :
    cexSel.length = 2 ∧
    (∀ s ∈ cexSel, ((cexMaps.find? (fun m => m.id == s.mapId)).isSome = true)) ∧
    activeMap cexSel cexMaps = some (mergeConfigs (resolveConfigs cexSel cexMaps)) ∧
    (mergeConfigs (resolveConfigs cexSel cexMaps)).tiers.length = 2 ∧
    ¬ (∀ c ∈ (mergeConfigs (resolveConfigs cexSel cexMaps)).categories,
        ∀ f ∈ c.features, f.status.length = cexSel.length) := by
  refine ⟨rfl, by decide, rfl, by decide, ?_⟩
  decide

/-- Claim C2, amended: for a non-empty selection whose entries all resolve
*and whose derived column labels are pairwise distinct*, the merged
taxonomy's column list has exactly one entry per selection entry and every
unified feature's status mapping has exactly one key per column - its key
list is exactly the column list, including columns introduced by selection
entries processed after the feature was created.  (When two column labels
collide, the colliding columns share one status key, as the counterexample
shows.) -/
theorem C2_status_columns (sel : List SelEntry) (maps : List SrcMap) (u : Unified)
    (hres : ∀ s ∈ sel, ((maps.find? (fun m => m.id == s.mapId)).isSome = true))
    (hnodup : ((resolveConfigs sel maps).map (fun c => c.col)).Nodup)
    (h : activeMap sel maps = some u)
    (c : UCategory) (hc : c ∈ u.categories) (f : UFeature) (hf : f ∈ c.features) :
    u.tiers.length = sel.length ∧ f.status.map (fun p => p.1) = u.tiers := by
  have hu := activeMap_eq_some sel maps u h
  subst hu
  constructor
  · simp only [mergeConfigs, List.length_map]
    exact resolveConfigs_length sel maps hres
  · have hinv := mergeConfigs_forall
      (fun f => f.status.map (fun p => p.1) = (resolveConfigs sel maps).map (fun c => c.col))
      (resolveConfigs sel maps)
      (fun ft => newUFeature_keys _ ft hnodup)
      (fun col tier ft uf hcol hP => by
        show (applyOcc col tier ft uf).status.map (fun p => p.1)
          = (resolveConfigs sel maps).map (fun c => c.col)
        rw [applyOcc_keys col tier ft uf (by rw [hP]; exact hcol)]
        exact hP)
      c hc f hf
    simpa [mergeConfigs] using hinv

/-- Claim C2, witness: the three-column example has pairwise-distinct
columns; its unified feature's status keys are exactly the three columns. -/
theorem C2_witness :
    wUnified.tiers.length = wSel.length ∧
    wFeat.status.map (fun p => p.1) = wUnified.tiers :=
  C2_status_columns wSel wMaps wUnified (by decide) (by decide) rfl
    wCat (by decide) wFeat (by decide)

/-! ## Fingerprint distinctness inside the merge result -/

theorem map_congr_mem {α γ : Type} (l : List α) (f g : α → γ)
    (h : ∀ a ∈ l, f a = g a) : l.map f = l.map g := by
  induction l with
  | nil => rfl
  | cons x t ih =>
    simp only [List.map_cons, List.cons.injEq]
    exact ⟨h x (by simp), ih (fun a ha => h a (by simp [ha]))⟩

theorem applyFeat_fpnames_nodup (cn : List String) (col tier : String)
    (feats : List UFeature) (ft : SrcFeature)
    (h : (feats.map (fun f => getSemanticFingerprint f.name)).Nodup) :
    ((applyFeat cn col tier feats ft).map (fun f => getSemanticFingerprint f.name)).Nodup := by
  by_cases hany : feats.any
      (fun uf => getSemanticFingerprint uf.name == getSemanticFingerprint ft.name) = true
  · have hm : (applyFeat cn col tier feats ft).map (fun f => getSemanticFingerprint f.name)
        = feats.map (fun f => getSemanticFingerprint f.name) := by
      simp only [applyFeat, hany, if_true]
      exact map_updateFirst _ _ _ _ (fun uf => by rw [applyOcc_name])
    rw [hm]
    exact h
  · have hk : getSemanticFingerprint ft.name
        ∉ feats.map (fun f => getSemanticFingerprint f.name) := by
      intro hmem
      rcases List.mem_map.mp hmem with ⟨g, hg, he⟩
      exact hany (List.any_eq_true.mpr ⟨g, hg, by simp [he]⟩)
    have hm : (applyFeat cn col tier feats ft).map (fun f => getSemanticFingerprint f.name)
        = feats.map (fun f => getSemanticFingerprint f.name)
          ++ [getSemanticFingerprint ft.name] := by
      simp only [applyFeat, hany, Bool.false_eq_true, if_false]
      rw [map_updateFirst _ _ _ _ (fun uf => by rw [applyOcc_name])]
      simp [newUFeature_name]
    rw [hm]
    simp [List.nodup_append, h, hk]

theorem applyCat_catinv (cn : List String) (col tier : String)
    (cats : List (String × UCategory)) (cat : SrcCategory)
    (h1 : (cats.map (fun p => p.1)).Nodup)
    (h2 : ∀ q ∈ cats, getSemanticFingerprint q.2.name = q.1)
    (h3 : ∀ q ∈ cats, (q.2.features.map (fun f => getSemanticFingerprint f.name)).Nodup) :
    ((applyCat cn col tier cats cat).map (fun p => p.1)).Nodup ∧
    (∀ q ∈ applyCat cn col tier cats cat, getSemanticFingerprint q.2.name = q.1) ∧
    (∀ q ∈ applyCat cn col tier cats cat,
      (q.2.features.map (fun f => getSemanticFingerprint f.name)).Nodup) := by
  have hupd1 : ∀ (cats' : List (String × UCategory)),
      (cats'.map (fun p => p.1)).Nodup →
      ((updateFirst cats' (fun p => p.1 == getSemanticFingerprint cat.name)
        (fun kc => (kc.1, (⟨kc.2.name,
          cat.features.foldl (applyFeat cn col tier) kc.2.features⟩ : UCategory)))).map
        (fun p => p.1)).Nodup := by
    intro cats' hnd
    rw [map_updateFirst (fun (p : String × UCategory) => p.1) cats'
      (fun p => p.1 == getSemanticFingerprint cat.name)
      (fun kc => (kc.1, (⟨kc.2.name,
        cat.features.foldl (applyFeat cn col tier) kc.2.features⟩ : UCategory)))
      (fun kc => rfl)]
    exact hnd
  have hupd2 : ∀ (cats' : List (String × UCategory)),
      (∀ q ∈ cats', getSemanticFingerprint q.2.name = q.1) →
      ∀ q ∈ updateFirst cats' (fun p => p.1 == getSemanticFingerprint cat.name)
        (fun kc => (kc.1, (⟨kc.2.name,
          cat.features.foldl (applyFeat cn col tier) kc.2.features⟩ : UCategory))),
        getSemanticFingerprint q.2.name = q.1 := by
    intro cats' hall
    exact forall_updateFirst _ cats' _ _ hall (fun q hq => hq)
  have hupd3 : ∀ (cats' : List (String × UCategory)),
      (∀ q ∈ cats', (q.2.features.map (fun f => getSemanticFingerprint f.name)).Nodup) →
      ∀ q ∈ updateFirst cats' (fun p => p.1 == getSemanticFingerprint cat.name)
        (fun kc => (kc.1, (⟨kc.2.name,
          cat.features.foldl (applyFeat cn col tier) kc.2.features⟩ : UCategory))),
        (q.2.features.map (fun f => getSemanticFingerprint f.name)).Nodup := by
    intro cats' hall
    refine forall_updateFirst _ cats' _ _ hall ?_
    intro q hq
    refine foldl_preserve
      (fun fs => (fs.map (fun f => getSemanticFingerprint f.name)).Nodup)
      (applyFeat cn col tier) cat.features q.2.features hq ?_
    intro fs ft _ hfs
    exact applyFeat_fpnames_nodup cn col tier fs ft hfs
  by_cases hany : cats.any (fun p => p.1 == getSemanticFingerprint cat.name) = true
  · have he : applyCat cn col tier cats cat
        = updateFirst cats (fun p => p.1 == getSemanticFingerprint cat.name)
          (fun kc => (kc.1, (⟨kc.2.name,
            cat.features.foldl (applyFeat cn col tier) kc.2.features⟩ : UCategory))) := by
      simp only [applyCat, hany, if_true]
    rw [he]
    exact ⟨hupd1 cats h1, hupd2 cats h2, hupd3 cats h3⟩
  · have hkey : getSemanticFingerprint cat.name ∉ cats.map (fun p => p.1) := by
      intro hmem
      rcases List.mem_map.mp hmem with ⟨q, hq, heq⟩
      exact hany (List.any_eq_true.mpr ⟨q, hq, by simp [heq]⟩)
    have he : applyCat cn col tier cats cat
        = updateFirst (cats ++ [(getSemanticFingerprint cat.name, (⟨cat.name, []⟩ : UCategory))])
          (fun p => p.1 == getSemanticFingerprint cat.name)
          (fun kc => (kc.1, (⟨kc.2.name,
            cat.features.foldl (applyFeat cn col tier) kc.2.features⟩ : UCategory))) := by
      simp only [applyCat, hany, Bool.false_eq_true, if_false]
    rw [he]
    refine ⟨hupd1 _ ?_, hupd2 _ ?_, hupd3 _ ?_⟩
    · simpa [List.nodup_append, h1] using hkey
    · intro q hq
      rcases List.mem_append.mp hq with hq1 | hq2
      · exact h2 q hq1
      · have : q = (getSemanticFingerprint cat.name, (⟨cat.name, []⟩ : UCategory)) := by
          simpa using hq2
        rw [this]
    · intro q hq
      rcases List.mem_append.mp hq with hq1 | hq2
      · exact h3 q hq1
      · have : q = (getSemanticFingerprint cat.name, (⟨cat.name, []⟩ : UCategory)) := by
          simpa using hq2
        rw [this]
        simp

/-- Claim C10: in every merge result the unified categories carry pairwise
distinct display-name fingerprints (the category map is keyed by them), and
within each unified category the unified features carry pairwise distinct
name fingerprints, so fingerprint lookups into the result are unambiguous. -/
theorem C10_fingerprints_nodup (sel : List SelEntry) (maps : List SrcMap) (u : Unified)
    (h : activeMap sel maps = some u) (c : UCategory) (hc : c ∈ u.categories) :
    (u.categories.map (fun c => getSemanticFingerprint c.name)).Nodup ∧
    (c.features.map (fun f => getSemanticFingerprint f.name)).Nodup := by
  have hu := activeMap_eq_some sel maps u h
  subst hu
  have main :
      ((((resolveConfigs sel maps).foldl
        (fun acc cf => cf.map.data.categories.foldl
          (applyCat ((resolveConfigs sel maps).map (fun c => c.col)) cf.col cf.tier) acc)
        []).map (fun p => p.1)).Nodup ∧
      (∀ q ∈ (resolveConfigs sel maps).foldl
        (fun acc cf => cf.map.data.categories.foldl
          (applyCat ((resolveConfigs sel maps).map (fun c => c.col)) cf.col cf.tier) acc)
        [], getSemanticFingerprint q.2.name = q.1) ∧
      (∀ q ∈ (resolveConfigs sel maps).foldl
        (fun acc cf => cf.map.data.categories.foldl
          (applyCat ((resolveConfigs sel maps).map (fun c => c.col)) cf.col cf.tier) acc)
        [], (q.2.features.map (fun f => getSemanticFingerprint f.name)).Nodup)) := by
    refine foldl_preserve
      (fun cats => ((cats.map (fun p => p.1)).Nodup ∧
        (∀ q ∈ cats, getSemanticFingerprint q.2.name = q.1) ∧
        (∀ q ∈ cats, (q.2.features.map (fun f => getSemanticFingerprint f.name)).Nodup)))
      (fun acc cf => cf.map.data.categories.foldl
        (applyCat ((resolveConfigs sel maps).map (fun c => c.col)) cf.col cf.tier) acc)
      (resolveConfigs sel maps) [] (by simp) ?_
    intro acc cf _ hacc
    refine foldl_preserve
      (fun cats => ((cats.map (fun p => p.1)).Nodup ∧
        (∀ q ∈ cats, getSemanticFingerprint q.2.name = q.1) ∧
        (∀ q ∈ cats, (q.2.features.map (fun f => getSemanticFingerprint f.name)).Nodup)))
      (applyCat ((resolveConfigs sel maps).map (fun c => c.col)) cf.col cf.tier)
      cf.map.data.categories acc hacc ?_
    intro acc2 cat _ hacc2
    exact applyCat_catinv _ cf.col cf.tier acc2 cat hacc2.1 hacc2.2.1 hacc2.2.2
  obtain ⟨m1, m2, m3⟩ := main
  constructor
  · have hcat : (mergeConfigs (resolveConfigs sel maps)).categories.map
        (fun c => getSemanticFingerprint c.name)
        = ((resolveConfigs sel maps).foldl
          (fun acc cf => cf.map.data.categories.foldl
            (applyCat ((resolveConfigs sel maps).map (fun c => c.col)) cf.col cf.tier) acc)
          []).map (fun p => p.1) := by
      simp only [mergeConfigs, List.map_map]
      exact map_congr_mem _ _ _ (fun q hq => m2 q hq)
    rw [hcat]
    exact m1
  · simp only [mergeConfigs] at hc
    rcases List.mem_map.mp hc with ⟨q, hq, he⟩
    exact he ▸ m3 q hq

/-- Claim C10, witness: the three-column example's merge result has one
category and one feature, trivially pairwise-distinct fingerprints. -/
theorem C10_witness :
    (wUnified.categories.map (fun c => getSemanticFingerprint c.name)).Nodup ∧
    (wCat.features.map (fun f => getSemanticFingerprint f.name)).Nodup :=
  C10_fingerprints_nodup wSel wMaps wUnified rfl wCat (by decide)

/-! ## Dropping unresolvable selection entries (C3) -/

theorem resolveConfigs_filter (sel : List SelEntry) (maps : List SrcMap) :
    resolveConfigs sel maps
      = resolveConfigs
          (sel.filter (fun s => (maps.find? (fun m => m.id == s.mapId)).isSome)) maps := by
  induction sel with
  | nil => rfl
  | cons s t ih =>
    cases hfind : maps.find? (fun m => m.id == s.mapId) with
    | none => simp [resolveConfigs, List.filterMap_cons, List.filter_cons, hfind] at ih ⊢; exact ih
    | some m => simp [resolveConfigs, List.filterMap_cons, List.filter_cons, hfind] at ih ⊢; exact ih

/-- Claim C3: the merge never throws - for every selection it yields a
value: `null` (the absent taxonomy) for the empty selection, and for every
non-empty selection the merged result over the resolvable entries.
Unresolvable entries are dropped silently: the resolved configs equal those
of the purged selection, so whenever at least one entry resolves, merging
equals merging the purged selection; and when *no* entry of a non-empty
selection resolves, the result is the empty taxonomy (no columns, no
categories), still not an error. -/
theorem C3_drop_unresolvable (sel : List SelEntry) (maps : List SrcMap)
    (hne : sel ≠ []) :
    activeMap ([] : List SelEntry) maps = none ∧
    activeMap sel maps = some (mergeConfigs (resolveConfigs sel maps)) ∧
    resolveConfigs sel maps
      = resolveConfigs (sel.filter (fun s => (maps.find? (fun m => m.id == s.mapId)).isSome))
          maps ∧
    (sel.filter (fun s => (maps.find? (fun m => m.id == s.mapId)).isSome) ≠ [] →
      activeMap sel maps
        = activeMap (sel.filter (fun s => (maps.find? (fun m => m.id == s.mapId)).isSome))
            maps) ∧
    (sel.filter (fun s => (maps.find? (fun m => m.id == s.mapId)).isSome) = [] →
      activeMap sel maps = some ⟨[], []⟩) := by
  have hsel : sel.isEmpty = false := by
    cases sel with
    | nil => exact absurd rfl hne
    | cons a t => rfl
  have hsome : activeMap sel maps = some (mergeConfigs (resolveConfigs sel maps)) := by
    simp [activeMap, hsel]
  refine ⟨rfl, hsome, resolveConfigs_filter sel maps, ?_, ?_⟩
  · intro hne2
    have hsel2 : (sel.filter (fun s => (maps.find? (fun m => m.id == s.mapId)).isSome)).isEmpty
        = false := by
      cases hf : sel.filter (fun s => (maps.find? (fun m => m.id == s.mapId)).isSome) with
      | nil => exact absurd hf hne2
      | cons a t => rfl
    simp only [activeMap, hsel, hsel2, Bool.false_eq_true, if_false]
    rw [resolveConfigs_filter sel maps]
  · intro hnil
    have hres : resolveConfigs sel maps = [] := by
      rw [resolveConfigs_filter sel maps, hnil]
      rfl
    rw [hsome, hres]
    rfl

/-- Claim C3, witness: with a selection containing one resolvable and one
ghost entry, the merge returns the same result as the purged selection. -/
theorem C3_witness :
    activeMap ([] : List SelEntry) wMaps = none ∧
    activeMap ghostSel wMaps = some (mergeConfigs (resolveConfigs ghostSel wMaps)) ∧
    resolveConfigs ghostSel wMaps
      = resolveConfigs
          (ghostSel.filter (fun s => (wMaps.find? (fun m => m.id == s.mapId)).isSome)) wMaps ∧
    (ghostSel.filter (fun s => (wMaps.find? (fun m => m.id == s.mapId)).isSome) ≠ [] →
      activeMap ghostSel wMaps
        = activeMap (ghostSel.filter (fun s => (wMaps.find? (fun m => m.id == s.mapId)).isSome))
            wMaps) ∧
    (ghostSel.filter (fun s => (wMaps.find? (fun m => m.id == s.mapId)).isSome) = [] →
      activeMap ghostSel wMaps = some ⟨[], []⟩) :=
  C3_drop_unresolvable ghostSel wMaps (by decide)

/-! ## Purity and idempotence of the merge (C5) -/

theorem resolveConfigsSt_eq (sel : List SelEntry) (maps : List SrcMap) :
    resolveConfigsSt sel maps = (resolveConfigs sel maps, maps) := by
  induction sel with
  | nil => rfl
  | cons s t ih =>
    cases hfind : maps.find? (fun m => m.id == s.mapId) with
    | none => simp [resolveConfigsSt, resolveConfigs, List.filterMap_cons, hfind, ih]
    | some m =>
      simp only [resolveConfigsSt, hfind, ih]
      simp [resolveConfigs, List.filterMap_cons, hfind]

/-- Claim C5: the merge is pure and idempotent - one reactive recomputation
leaves the stored source taxonomies exactly as they were (the source only
ever reads `maps`, via `maps.find`), and re-running the merge on the state
left behind by a first run produces a structurally equal output and again an
unchanged store, so repeated recomputation cannot accumulate duplicate
categories. -/
theorem C5_pure_idempotent (sel : List SelEntry) (maps : List SrcMap) :
    (activeMapRun sel maps).2 = maps ∧
    (activeMapRun sel ((activeMapRun sel maps).2)).1 = (activeMapRun sel maps).1 ∧
    (activeMapRun sel ((activeMapRun sel maps).2)).2 = maps := by
  have h2 : (activeMapRun sel maps).2 = maps := by
    by_cases hsel : sel.isEmpty <;>
      simp [activeMapRun, resolveConfigsSt_eq, hsel]
  exact ⟨h2, by rw [h2], by rw [h2]; exact h2⟩

/-! ## The filtered projection (C6) -/

theorem lowerStr_ne_empty {s : String} (h : s ≠ "") : lowerStr s ≠ "" := by
  intro he
  apply h
  obtain ⟨d⟩ := s
  cases d with
  | nil => rfl
  | cons c t =>
    exfalso
    have hd := congrArg String.data he
    simp [lowerStr] at hd

theorem mem_filterFeats {q : String} {dOnly : Bool} {feats : List UFeature} {f : UFeature}
    (h : f ∈ filterFeats q dOnly feats) :
    f ∈ feats ∧
    (q ≠ "" →
      (strIncludes (lowerStr f.name) q || strIncludes (lowerStr f.description) q) = true) ∧
    (dOnly = true → f.isDiff = true) := by
  simp only [filterFeats] at h
  by_cases hq : (q != "") = true
  · rw [if_pos hq] at h
    by_cases hd : dOnly = true
    · rw [if_pos hd] at h
      obtain ⟨h1, h2⟩ := List.mem_filter.mp h
      obtain ⟨h3, h4⟩ := List.mem_filter.mp h1
      exact ⟨h3, fun _ => h4, fun _ => h2⟩
    · rw [if_neg hd] at h
      obtain ⟨h3, h4⟩ := List.mem_filter.mp h
      exact ⟨h3, fun _ => h4, fun hd2 => absurd hd2 hd⟩
  · rw [if_neg hq] at h
    have hqe : q = "" := by
      by_contra hne
      exact hq (bne_iff_ne.mpr hne)
    by_cases hd : dOnly = true
    · rw [if_pos hd] at h
      obtain ⟨h1, h2⟩ := List.mem_filter.mp h
      exact ⟨h1, fun hne => absurd hqe hne, fun _ => h2⟩
    · rw [if_neg hd] at h
      exact ⟨h, fun hne => absurd hqe hne, fun hd2 => absurd hd2 hd⟩

theorem filterFeats_eq_nil {q : String} {dOnly : Bool} {feats : List UFeature}
    (hq : q ≠ "")
    (h : ∀ f ∈ feats,
      (strIncludes (lowerStr f.name) q || strIncludes (lowerStr f.description) q) = false) :
    filterFeats q dOnly feats = [] := by
  have hq' : (q != "") = true := bne_iff_ne.mpr hq
  have h1 : feats.filter (fun f =>
      strIncludes (lowerStr f.name) q || strIncludes (lowerStr f.description) q) = [] := by
    rw [List.filter_eq_nil_iff]
    intro f hf
    simp [h f hf]
  simp only [filterFeats, hq', if_true, h1]
  cases dOnly <;> simp

/-- Claim C6: the projection keeps a feature only if the query is empty or
matches its name or description case-insensitively, keeps only `isDiff`
features when `diffOnly` is set, and drops every category left without
features; consequently a query matching no feature empties the whole
result. -/
theorem C6_projection (am : Option Unified) (q : String) (selCats : List String)
    (dOnly : Bool) (hq : q ≠ "")
    (hnomatch : ∀ c ∈ (am.getD ⟨[], []⟩).categories, ∀ f ∈ c.features, matchesQ q f = false) :
    filteredCategories am q selCats dOnly = [] ∧
    (∀ (am2 : Option Unified) (q2 : String) (sc2 : List String) (d2 : Bool)
      (c : UCategory), c ∈ filteredCategories am2 q2 sc2 d2 →
        c.features ≠ [] ∧
        ∀ f ∈ c.features, (q2 = "" ∨ matchesQ q2 f = true) ∧ (d2 = true → f.isDiff = true)) := by
  constructor
  · cases am with
    | none => rfl
    | some m =>
      simp only [filteredCategories]
      rw [List.filter_eq_nil_iff]
      intro a ha
      rcases List.mem_map.mp ha with ⟨c, hcbase, hgc⟩
      have hcm : c ∈ m.categories := (List.mem_filter.mp hcbase).1
      have hfe : filterFeats (lowerStr q) dOnly c.features = [] :=
        filterFeats_eq_nil (lowerStr_ne_empty hq) (fun f hf => hnomatch c hcm f hf)
      rw [← hgc]
      simp [hfe]
  · intro am2 q2 sc2 d2 c hc
    cases am2 with
    | none => simp [filteredCategories] at hc
    | some m =>
      simp only [filteredCategories] at hc
      obtain ⟨hcmem, hlen⟩ := List.mem_filter.mp hc
      rcases List.mem_map.mp hcmem with ⟨c0, hc0, hgc⟩
      constructor
      · intro he
        rw [he] at hlen
        simp at hlen
      · intro f hf
        have hf2 : f ∈ filterFeats (lowerStr q2) d2 c0.features := by
          rw [← hgc] at hf
          exact hf
        obtain ⟨hfin, hmatch, hdiff⟩ := mem_filterFeats hf2
        refine ⟨?_, hdiff⟩
        by_cases hq2 : q2 = ""
        · exact Or.inl hq2
        · exact Or.inr (hmatch (lowerStr_ne_empty hq2))

/-- Claim C6, witness: the query "zzz" matches nothing in the three-column
example, so the projection is empty; the general shape half is inherited. -/
theorem C6_witness :
    filteredCategories (activeMap wSel wMaps) "zzz" [] false = [] ∧
    (∀ (am2 : Option Unified) (q2 : String) (sc2 : List String) (d2 : Bool)
      (c : UCategory), c ∈ filteredCategories am2 q2 sc2 d2 →
        c.features ≠ [] ∧
        ∀ f ∈ c.features, (q2 = "" ∨ matchesQ q2 f = true) ∧ (d2 = true → f.isDiff = true)) :=
  C6_projection (activeMap wSel wMaps) "zzz" [] false (by decide) (by decide)

/-! ## Enrichment (C7) -/

theorem enrichDesc_self (d : String) : enrichDesc d d = d := by
  simp [enrichDesc]

theorem enrichLink_self (l : Option String) : enrichLink l l = l := by
  by_cases h : optTruthy l = true <;> simp [enrichLink, h]

theorem maxLen_cons (s : String) (t : List String) :
    maxLen (s :: t) = max s.length (maxLen t) := rfl

theorem le_maxLen_head (s : String) (t : List String) : s.length ≤ maxLen (s :: t) :=
  Nat.le_max_left _ _

theorem firstLongest_enrich (d0 d : String) (t : List String) :
    firstLongest (enrichDesc d0 d :: t) = firstLongest (d0 :: d :: t) := by
  by_cases hlt : d.length > d0.length
  · have he : enrichDesc d0 d = d := by simp [enrichDesc, hlt]
    rw [he]
    have hm : maxLen (d0 :: d :: t) = maxLen (d :: t) := by
      rw [maxLen_cons d0 (d :: t)]
      exact Nat.max_eq_right (le_trans (Nat.le_of_lt hlt) (le_maxLen_head d t))
    have hne : d0.length ≠ maxLen (d :: t) := by
      have := le_maxLen_head d t
      omega
    simp [firstLongest, hm, List.find?_cons, hne]
  · have he : enrichDesc d0 d = d0 := by simp [enrichDesc, hlt]
    rw [he]
    have hle : d.length ≤ d0.length := Nat.le_of_not_lt hlt
    have hm : maxLen (d0 :: d :: t) = maxLen (d0 :: t) := by
      rw [maxLen_cons d0 (d :: t), maxLen_cons d t, maxLen_cons d0 t,
        ← Nat.max_assoc, Nat.max_eq_left hle]
    by_cases h0 : d0.length = maxLen (d0 :: t)
    · simp [firstLongest, hm, List.find?_cons, h0]
    · have hd0lt : d0.length < maxLen (d0 :: t) :=
        Nat.lt_of_le_of_ne (le_maxLen_head d0 t) h0
      have hd : d.length ≠ maxLen (d0 :: t) := by omega
      simp [firstLongest, hm, List.find?_cons, h0, hd]

theorem foldl_enrichDesc (ds : List String) (d0 : String) :
    ds.foldl enrichDesc d0 = firstLongest (d0 :: ds) := by
  induction ds generalizing d0 with
  | nil => simp [firstLongest, maxLen, List.find?_cons]
  | cons d t ih =>
    rw [List.foldl_cons, ih (enrichDesc d0 d)]
    exact firstLongest_enrich d0 d t

theorem foldl_enrichLink_truthy (ls : List (Option String)) (l0 : Option String)
    (h : optTruthy l0 = true) : ls.foldl enrichLink l0 = l0 := by
  induction ls with
  | nil => rfl
  | cons x t ih =>
    rw [List.foldl_cons]
    have : enrichLink l0 x = l0 := by simp [enrichLink, h]
    rw [this, ih]

theorem foldl_enrichLink (ls : List (Option String)) (l0 : Option String) (lf : Option String)
    (h : (l0 :: ls).find? optTruthy = some lf) : ls.foldl enrichLink l0 = lf := by
  induction ls generalizing l0 with
  | nil =>
    by_cases h0 : optTruthy l0 = true
    · simp only [List.find?_cons, h0] at h
      simpa using h
    · have h0f : optTruthy l0 = false := by simpa using h0
      simp only [List.find?_cons, h0f] at h
      simp at h
  | cons x t ih =>
    by_cases h0 : optTruthy l0 = true
    · simp only [List.find?_cons, h0] at h
      have hl : l0 = lf := by simpa using h
      rw [← hl]
      exact foldl_enrichLink_truthy (x :: t) l0 h0
    · have h0f : optTruthy l0 = false := by simpa using h0
      simp only [List.find?_cons, h0f] at h
      rw [List.foldl_cons]
      by_cases hx : optTruthy x = true
      · have he : enrichLink l0 x = x := by
          simp [enrichLink, h0f, hx]
        rw [he]
        simp only [List.find?_cons, hx] at h
        have hl : x = lf := by simpa using h
        rw [← hl]
        exact foldl_enrichLink_truthy t x hx
      · have hxf : optTruthy x = false := by simpa using hx
        have he : enrichLink l0 x = l0 := by
          simp [enrichLink, h0f, hxf]
        rw [he]
        simp only [List.find?_cons, hxf] at h
        exact ih l0 (by simp only [List.find?_cons, h0f]; exact h)

theorem foldl_applyOcc_description (occs : List (String × String × SrcFeature)) (uf : UFeature) :
    (occs.foldl (fun uf o => applyOcc o.1 o.2.1 o.2.2 uf) uf).description
      = (occs.map (fun o => o.2.2.description)).foldl enrichDesc uf.description := by
  induction occs generalizing uf with
  | nil => rfl
  | cons o t ih =>
    rw [List.foldl_cons, ih, List.map_cons, List.foldl_cons]
    rfl

theorem foldl_applyOcc_link (occs : List (String × String × SrcFeature)) (uf : UFeature) :
    (occs.foldl (fun uf o => applyOcc o.1 o.2.1 o.2.2 uf) uf).link
      = (occs.map (fun o => o.2.2.link)).foldl enrichLink uf.link := by
  induction occs generalizing uf with
  | nil => rfl
  | cons o t ih =>
    rw [List.foldl_cons, ih, List.map_cons, List.foldl_cons]
    rfl

/-- Claim C7: across *every* sequence of occurrences merged into one
unified feature, the final description equals the earliest strictly-longest
description seen (a later occurrence replaces the running value exactly when
its description is strictly longer) - with no condition on links - and,
whenever some occurrence carries a truthy (present, non-empty) link, the
final link is the first such link seen: once set, a link is never
replaced. -/
theorem C7_enrichment (cn : List String) (first : String × String × SrcFeature)
    (rest : List (String × String × SrcFeature)) :
    (mergeOccurrences cn first rest).description
      = firstLongest (first.2.2.description :: rest.map (fun o => o.2.2.description)) ∧
    (∀ lf : Option String,
      (first.2.2.link :: rest.map (fun o => o.2.2.link)).find? optTruthy = some lf →
      (mergeOccurrences cn first rest).link = lf) := by
  constructor
  · have h1 : (mergeOccurrences cn first rest).description
        = (rest.map (fun o => o.2.2.description)).foldl enrichDesc
            first.2.2.description := by
      rw [mergeOccurrences, foldl_applyOcc_description]
      have : (applyOcc first.1 first.2.1 first.2.2
          (newUFeature cn first.2.2)).description = first.2.2.description := by
        show enrichDesc (newUFeature cn first.2.2).description first.2.2.description
          = first.2.2.description
        exact enrichDesc_self _
      rw [this]
    rw [h1]
    exact foldl_enrichDesc _ _
  · intro lf hlink
    have h1 : (mergeOccurrences cn first rest).link
        = (rest.map (fun o => o.2.2.link)).foldl enrichLink first.2.2.link := by
      rw [mergeOccurrences, foldl_applyOcc_link]
      have : (applyOcc first.1 first.2.1 first.2.2
          (newUFeature cn first.2.2)).link = first.2.2.link := by
        show enrichLink (newUFeature cn first.2.2).link first.2.2.link = first.2.2.link
        exact enrichLink_self _
      rw [this]
    rw [h1]
    exact foldl_enrichLink _ _ lf hlink

/-- Claim C7, witness: merging the two enterprise Defender occurrences (a
link-less sequence) keeps the longer of the two equal-length descriptions
by position, and merging the enterprise occurrence with the business one
yields the longer business description and adopts the first (and only)
non-empty link. -/
theorem C7_witness :
    ((mergeOccurrences ["EnterpriseDoc - E3", "EnterpriseDoc - E5"]
        ("EnterpriseDoc - E3", "E3", featDefEnt)
        [("EnterpriseDoc - E5", "E5", featDefEnt)]).description
      = firstLongest (featDefEnt.description :: [featDefEnt.description])) ∧
    ((mergeOccurrences ["EnterpriseDoc - E3", "BusinessDoc - Premium"]
        ("EnterpriseDoc - E3", "E3", featDefEnt)
        [("BusinessDoc - Premium", "Premium", featDefBiz)]).link
      = some "https://learn.microsoft.com/defender") :=
  ⟨(C7_enrichment ["EnterpriseDoc - E3", "EnterpriseDoc - E5"]
      ("EnterpriseDoc - E3", "E3", featDefEnt)
      [("EnterpriseDoc - E5", "E5", featDefEnt)]).1,
   (C7_enrichment ["EnterpriseDoc - E3", "BusinessDoc - Premium"]
      ("EnterpriseDoc - E3", "E3", featDefEnt)
      [("BusinessDoc - Premium", "Premium", featDefBiz)]).2
     (some "https://learn.microsoft.com/defender") (by decide)⟩

end M365
